import Mathlib

/-!
Verification development for the arbitrage router core
(`qtrade/arbitrage/core.py`, function `solve_arbitrage`).

The Python function is shallowly embedded over `ℚ`:

* `numpy` array construction and integer subscripting (including the
  silent wrap-around of negative subscripts) is modelled by `npIndex`,
  `setRow`/`setCol` and `writeCols`; a raised `IndexError` is modelled
  by `none`.
* the symbolic `cvxpy` variables `deltas` / `lambdas` are modelled by
  quantifying over rational assignments of the declared shapes;
* the affine expression `R + gamma_i * D - L` is modelled by
  `poolNewReserve`, including the one-dimensional `numpy` broadcasting
  rule for a length-one operand; the Python `zip` truncation to the
  shortest list is modelled by `zip4`;
* a constraint `cp.geo_mean(x, p) >= cp.geo_mean(y)` is modelled in the
  exponent-cleared form `(prod y) ^ (sum p) ≤ (prod x_i ^ p_i) ^ (length y)`
  together with the non-negativity domain of the `geo_mean` atom on both
  sides; for non-negative vectors this is exactly equivalent to the
  original inequality between the two geometric means (raise both sides
  to the positive power `(sum p) * (length y)`), and it keeps every
  predicate decidable over `ℚ`.
-/

namespace QtradeArb

/-- Numpy resolution of an integer subscript into a row index of an array
with `n` rows: a subscript `idx` with `0 ≤ idx < n` denotes row `idx`, a
negative subscript with `-n ≤ idx < 0` silently denotes row `n + idx`, and
anything else raises `IndexError`, modelled as `none`. -/
def npIndex (n : ℕ) (idx : ℤ) : Option ℕ :=
  if 0 ≤ idx ∧ idx < (n : ℤ) then some idx.toNat
  else if -(n : ℤ) ≤ idx ∧ idx < 0 then some (idx + (n : ℤ)).toNat
  else none

/-- Row index denoted by a numpy-valid subscript (non-negative ones are
taken as is, negative ones wrap around). -/
def npRow (n : ℕ) (idx : ℤ) : ℕ :=
  if idx < 0 then (idx + (n : ℤ)).toNat else idx.toNat

/-- Write `1` into position `c` of one row (`row[c] = 1`). -/
def setCol : List ℚ → ℕ → List ℚ
  | [], _ => []
  | _ :: xs, 0 => 1 :: xs
  | x :: xs, c + 1 => x :: setCol xs c

/-- Write `1` into entry `(r, c)` of a row-major matrix (`M[r, c] = 1`). -/
def setRow : List (List ℚ) → ℕ → ℕ → List (List ℚ)
  | [], _, _ => []
  | row :: rest, 0, c => setCol row c :: rest
  | row :: rest, r + 1, c => row :: setRow rest r c

/-- Entry `(r, c)` of a row-major matrix, `0` outside the stored area. -/
def ent (M : List (List ℚ)) (r c : ℕ) : ℚ :=
  (M.getD r []).getD c 0

/-- The loop `for i, idx in enumerate(l): A_i[idx, i] = 1` of the source,
started at column `c`: each subscript is resolved with numpy semantics and
the corresponding entry of the accumulator is set to `1`; an unresolvable
subscript aborts the loop with `IndexError` (`none`). -/
def writeCols (n : ℕ) : List (List ℚ) → ℕ → List ℤ → Option (List (List ℚ))
  | M, _, [] => some M
  | M, c, idx :: rest =>
    match npIndex n idx with
    | none => none
    | some r => writeCols n (setRow M r c) (c + 1) rest

/-- Embedding of the per-pool incidence-matrix construction of the source:
`A_i = np.zeros((n, n_i))` followed by the enumuerated assignment loop. -/
def buildA (n : ℕ) (l : List ℤ) : Option (List (List ℚ)) :=
  writeCols n (List.replicate n (List.replicate l.length 0)) 0 l

/-- Monadic map over `Option`: the whole list is produced unless some
element fails, in which case the first failure aborts the computation. -/
def omap {α β : Type} (f : α → Option β) : List α → Option (List β)
  | [] => some []
  | a :: as =>
    match f a, omap f as with
    | some b, some bs => some (b :: bs)
    | _, _ => none

/-- Embedding of the `for l in local_indices` loop that accumulates the
incidence matrices `A` of the source. -/
def buildAs (n : ℕ) (ls : List (List ℤ)) : Option (List (List (List ℚ))) :=
  omap (buildA n) ls

/-- Caller-supplied input of `solve_arbitrage`. The list `global_indices`
of the source is only ever used through its length, kept here as `n`. -/
structure Input where
  n : ℕ
  local_indices : List (List ℤ)
  reserves : List (List ℚ)
  fees : List ℚ
  market_value : List ℚ

/-- Four-way `zip`, truncating to the shortest list exactly as the Python
builtin `zip` does. -/
def zip4 {α β γ δ : Type} (as : List α) (bs : List β) (cs : List γ) (ds : List δ) :
    List (α × β × γ × δ) :=
  as.zip (bs.zip (cs.zip ds))

/-- Three-way `zip`, truncating to the shortest list. -/
def zip3 {α β γ : Type} (as : List α) (bs : List β) (cs : List γ) : List (α × β × γ) :=
  as.zip (bs.zip cs)

/-- Elementwise combination of two one-dimensional arrays under the numpy
broadcasting rule: equal lengths combine elementwise, a length-one operand
is stretched, and any other shape mismatch raises, modelled as `none`. -/
def bc (f : ℚ → ℚ → ℚ) (x y : List ℚ) : Option (List ℚ) :=
  if x.length = y.length then some (List.zipWith f x y)
  else if x.length = 1 then some (y.map (fun b => f (x.getD 0 0) b))
  else if y.length = 1 then some (x.map (fun a => f a (y.getD 0 0)))
  else none

/-- Scalar times vector, `gamma_i * D`. -/
def smul (γ : ℚ) (v : List ℚ) : List ℚ := v.map (fun a => γ * a)

/-- The per-pool post-trade reserve expression `R + gamma_i * D - L` of the
source, evaluated at a concrete assignment of the trade variables. -/
def poolNewReserve (R : List ℚ) (γ : ℚ) (D L : List ℚ) : Option (List ℚ) := do
  let t ← bc (fun a b => a + b) R (smul γ D)
  bc (fun a b => a - b) t L

/-- The list comprehension producing `new_reserves`, with the truncating
`zip` over `reserves`, `fees`, `deltas`, `lambdas`. -/
def newReserves (inp : Input) (D L : List (List ℚ)) : Option (List (List ℚ)) :=
  omap (fun t => poolNewReserve t.1 t.2.1 t.2.2.1 t.2.2.2)
    (zip4 inp.reserves inp.fees D L)

/-- Dot product of two rational vectors (truncating like `np.dot` never
has to, since all uses are shape-correct). -/
def dot (x y : List ℚ) : ℚ := (List.zipWith (fun a b => a * b) x y).sum

/-- Matrix-vector product `A_i @ v` of a row-major matrix with a vector. -/
def matVec (A : List (List ℚ)) (v : List ℚ) : List ℚ :=
  A.map (fun row => dot row v)

/-- Elementwise vector addition used to accumulate `psi`. -/
def vecAdd (x y : List ℚ) : List ℚ := List.zipWith (fun a b => a + b) x y

/-- The extraction vector `psi = cp.sum([A_i @ (L - D) ...])` of the source,
evaluated at a concrete assignment: the pool contributions, all of length
`n`, are summed elementwise starting from the zero vector. -/
def psiFrom (n : ℕ) (As : List (List (List ℚ))) (D L : List (List ℚ)) : List ℚ :=
  ((zip3 As D L).map (fun t => matVec t.1 (List.zipWith (fun a b => a - b) t.2.2 t.2.1))).foldl
    vecAdd (List.replicate n 0)

/-- Objective value `market_value @ psi` of the source at an assignment. -/
def objVal (inp : Input) (D L : List (List ℚ)) : ℚ :=
  (buildAs inp.n inp.local_indices).elim 0
    (fun As => dot inp.market_value (psiFrom inp.n As D L))

/-- Componentwise non-negativity of a vector. -/
def nonnegV (v : List ℚ) : Prop := ∀ x ∈ v, 0 ≤ x

/-- Componentwise non-negativity of a list of vectors. -/
def nonnegM (M : List (List ℚ)) : Prop := ∀ v ∈ M, nonnegV v

/-- Product `prod (x_i ^ p_i)` underlying a weighted geometric mean. -/
def geoPow (x : List ℚ) (p : List ℕ) : ℚ :=
  (List.zipWith (fun a e => a ^ e) x p).prod

/-- Embedding of the constraint `cp.geo_mean(x, p) >= cp.geo_mean(y)` in
exponent-cleared form: both `geo_mean` atoms carry their non-negativity
domain, and for non-negative vectors the inequality between the two means
is equivalent to `(prod y) ^ (sum p) ≤ (prod x_i ^ p_i) ^ (length y)`,
obtained by raising both means to the positive power `(sum p) * (length y)`.
This keeps the predicate inside `ℚ` and decidable. -/
def geoMeanGE (x : List ℚ) (p : List ℕ) (y : List ℚ) : Prop :=
  (∀ a ∈ x, 0 ≤ a) ∧ (∀ b ∈ y, 0 ≤ b) ∧ y.prod ^ p.sum ≤ geoPow x p ^ y.length

/-- Embedding of `cp.geo_mean(x) >= cp.geo_mean(y)` (uniform unit weights). -/
def geoMeanGE1 (x y : List ℚ) : Prop :=
  geoMeanGE x (List.replicate x.length 1) y

/-- The five per-pool constraints of the source, hard-coded by pool
position: pool 0 compares the weighted geometric mean (weights `[4,3,2,1]`)
of its post-trade reserves against the plain geometric mean of its
pre-trade reserves, pools 1 to 3 compare plain geometric means, pool 4 is
constant-sum with explicit post-trade non-negativity. Pools beyond index 4
do not occur here. -/
def consHold (inp : Input) (nr : List (List ℚ)) : Prop :=
  geoMeanGE (nr.getD 0 []) [4, 3, 2, 1] (inp.reserves.getD 0 []) ∧
  geoMeanGE1 (nr.getD 1 []) (inp.reserves.getD 1 []) ∧
  geoMeanGE1 (nr.getD 2 []) (inp.reserves.getD 2 []) ∧
  geoMeanGE1 (nr.getD 3 []) (inp.reserves.getD 3 []) ∧
  (inp.reserves.getD 4 []).sum ≤ (nr.getD 4 []).sum ∧
  nonnegV (nr.getD 4 [])

/-- An assignment of the trade variables has the shapes declared by
`cp.Variable(len(l))`: one deposit vector and one withdrawal vector per
pool, each of the arity of its pool. -/
def WellShapedVars (inp : Input) (D L : List (List ℚ)) : Prop :=
  D.length = inp.local_indices.length ∧ L.length = inp.local_indices.length ∧
  (∀ t ∈ inp.local_indices.zip D, t.2.length = t.1.length) ∧
  (∀ t ∈ inp.local_indices.zip L, t.2.length = t.1.length)

/-- Feasibility of an assignment for the assembled problem: the assignment
has the declared shapes, the variables are non-negative (`nonneg=True`),
the incidence matrices and the post-trade reserve expressions are
constructible, the five hard-coded pool constraints hold, and `psi >= 0`
holds componentwise. -/
def Feasible (inp : Input) (D L : List (List ℚ)) : Prop :=
  WellShapedVars inp D L ∧ nonnegM D ∧ nonnegM L ∧
  (buildAs inp.n inp.local_indices).elim False (fun As =>
    (newReserves inp D L).elim False (fun nr =>
      5 ≤ nr.length ∧ consHold inp nr ∧ nonnegV (psiFrom inp.n As D L)))

/-- The all-zero assignment: `deposit = withdraw = 0` for every pool. -/
def zerosFor (inp : Input) : List (List ℚ) :=
  inp.local_indices.map (fun l => List.replicate l.length 0)

/-- Success of the subscripts `new_reserves[0]` .. `new_reserves[4]` taken
while the constraint list is assembled: the `zip`-truncated list of
post-trade reserve expressions must have at least five entries, otherwise
the subscript raises `IndexError`. The shape of each symbolic expression
equals its shape at the all-zero assignment. -/
def consAssembles (inp : Input) : Prop :=
  5 ≤ (zip4 inp.reserves inp.fees (zerosFor inp) (zerosFor inp)).length

/-- The whole model construction of the source runs without raising,
from the incidence loop through the objective and the constraint list:
all subscripts resolve, all expression shapes fit (including the weight
vector `[4,3,2,1]` against the arity of pool 0 and the price vector
against `psi`), and the five constraint subscripts succeed. -/
def ModelBuilds (inp : Input) : Prop :=
  (buildAs inp.n inp.local_indices).isSome = true ∧
  (newReserves inp (zerosFor inp) (zerosFor inp)).isSome = true ∧
  consAssembles inp ∧
  (inp.local_indices.getD 0 []).length = 4 ∧
  inp.market_value.length = inp.n

/-- A valid input in the sense of the specification: consistent lengths,
per-pool reserve vectors matching the arity, all indices in `[0, n)`,
non-negative reserves, fee retentions in `(0, 1]`, and a full price
vector. -/
def ValidInput (inp : Input) : Prop :=
  inp.local_indices.length = inp.reserves.length ∧
  inp.reserves.length = inp.fees.length ∧
  (∀ t ∈ inp.local_indices.zip inp.reserves, t.2.length = t.1.length) ∧
  (∀ l ∈ inp.local_indices, ∀ idx ∈ l, 0 ≤ idx ∧ idx < (inp.n : ℤ)) ∧
  (∀ R ∈ inp.reserves, nonnegV R) ∧
  (∀ γ ∈ inp.fees, 0 < γ ∧ γ ≤ 1) ∧
  inp.market_value.length = inp.n

instance decOptionElimFalse {α : Type} {P : α → Prop} [inst : ∀ a, Decidable (P a)] :
    (o : Option α) → Decidable (o.elim False P)
  | none => isFalse (fun h => h)
  | some a => inst a

instance (v : List ℚ) : Decidable (nonnegV v) := by
  unfold nonnegV; infer_instance

instance (M : List (List ℚ)) : Decidable (nonnegM M) := by
  unfold nonnegM; infer_instance

instance (x : List ℚ) (p : List ℕ) (y : List ℚ) : Decidable (geoMeanGE x p y) := by
  unfold geoMeanGE; infer_instance

instance (x y : List ℚ) : Decidable (geoMeanGE1 x y) := by
  unfold geoMeanGE1; infer_instance

instance (inp : Input) (nr : List (List ℚ)) : Decidable (consHold inp nr) := by
  unfold consHold; infer_instance

instance (inp : Input) (D L : List (List ℚ)) : Decidable (WellShapedVars inp D L) := by
  unfold WellShapedVars; infer_instance

instance (inp : Input) (D L : List (List ℚ)) : Decidable (Feasible inp D L) := by
  unfold Feasible; infer_instance

instance (inp : Input) : Decidable (consAssembles inp) := by
  unfold consAssembles; infer_instance

instance (inp : Input) : Decidable (ModelBuilds inp) := by
  unfold ModelBuilds; infer_instance

instance (inp : Input) : Decidable (ValidInput inp) := by
  unfold ValidInput; infer_instance

/-- The end-to-end scenario of the reference test: four global assets and
five pools. -/
def inpTest : Input where
  n := 4
  local_indices := [[0, 1, 2, 3], [0, 1], [1, 2], [2, 3], [2, 3]]
  reserves := [[4, 4, 4, 4], [10, 1], [1, 5], [40, 50], [10, 10]]
  fees := [998/1000, 997/1000, 997/1000, 997/1000, 999/1000]
  market_value := [3/2, 10, 2, 3]

/-- Sizes of the declared trade variables: `cp.Variable(len(l))` for each
pool, for the deposit list as well as the withdrawal list. -/
def varShapes (inp : Input) : List ℕ := inp.local_indices.map List.length

/-- The reference scenario with the reserves of the first pool skewed to
`[1, 1, 1, 16]` (still a valid input: non-negative reserves, fees in
`(0, 1]`, consistent lengths, indices in range). -/
def inpSkew : Input where
  n := 4
  local_indices := [[0, 1, 2, 3], [0, 1], [1, 2], [2, 3], [2, 3]]
  reserves := [[1, 1, 1, 16], [10, 1], [1, 5], [40, 50], [10, 10]]
  fees := [998/1000, 997/1000, 997/1000, 997/1000, 999/1000]
  market_value := [3/2, 10, 2, 3]

/-- The reference scenario with a misconfigured fee list: six entries for
five pools, and a first fee retention of `0` (not in `(0, 1]`). -/
def inpCfg : Input where
  n := 4
  local_indices := [[0, 1, 2, 3], [0, 1], [1, 2], [2, 3], [2, 3]]
  reserves := [[4, 4, 4, 4], [10, 1], [1, 5], [40, 50], [10, 10]]
  fees := [0, 997/1000, 997/1000, 997/1000, 999/1000, 1/2]
  market_value := [3/2, 10, 2, 3]

/-- The reference scenario with the constant-sum pool touching global
asset 2 in both of its slots and a fee retention of `1` for it. -/
def inpDup : Input where
  n := 4
  local_indices := [[0, 1, 2, 3], [0, 1], [1, 2], [2, 3], [2, 2]]
  reserves := [[4, 4, 4, 4], [10, 1], [1, 5], [40, 50], [10, 10]]
  fees := [998/1000, 997/1000, 997/1000, 997/1000, 1]
  market_value := [3/2, 10, 2, 3]

/-- Deposits for `inpDup`: `10` into slot 0 of the constant-sum pool. -/
def DDup : List (List ℚ) := [[0, 0, 0, 0], [0, 0], [0, 0], [0, 0], [10, 0]]

/-- Withdrawals for `inpDup`: `10` out of slot 1 of the constant-sum pool. -/
def LDup : List (List ℚ) := [[0, 0, 0, 0], [0, 0], [0, 0], [0, 0], [0, 10]]

/-- Post-trade reserves of `inpDup` under `DDup` / `LDup`: the constant-sum
pool moves from `[10, 10]` to `[20, 0]`, keeping its sum but collapsing its
geometric mean to `0`. -/
def nrDup : List (List ℚ) := [[4, 4, 4, 4], [10, 1], [1, 5], [40, 50], [20, 0]]

/-- The reference scenario extended by a sixth pool on assets 0 and 1 with
reserves `[10, 10]` and fee retention `9/10`. -/
def inpSix : Input where
  n := 4
  local_indices := [[0, 1, 2, 3], [0, 1], [1, 2], [2, 3], [2, 3], [0, 1]]
  reserves := [[4, 4, 4, 4], [10, 1], [1, 5], [40, 50], [10, 10], [10, 10]]
  fees := [998/1000, 997/1000, 997/1000, 997/1000, 999/1000, 9/10]
  market_value := [3/2, 10, 2, 3]

/-- Deposits for `inpSix`: none. -/
def DSix : List (List ℚ) := [[0, 0, 0, 0], [0, 0], [0, 0], [0, 0], [0, 0], [0, 0]]

/-- Withdrawals for `inpSix`: `100` out of slot 0 of the sixth pool, far
more than its reserve of `10`. -/
def LSix : List (List ℚ) := [[0, 0, 0, 0], [0, 0], [0, 0], [0, 0], [0, 0], [100, 0]]

/-- Post-trade reserves of `inpSix` under `DSix` / `LSix`: the sixth pool
ends at `[-90, 10]` with a negative component and a collapsed sum. -/
def nrSix : List (List ℚ) :=
  [[4, 4, 4, 4], [10, 1], [1, 5], [40, 50], [10, 10], [-90, 10]]

/-- A one-pool input whose reserve vector has length 3 while the pool
arity is 2 (neither length is 1, so numpy broadcasting cannot repair the
mismatch). -/
def inpMis : Input where
  n := 2
  local_indices := [[0, 1]]
  reserves := [[1, 2, 3]]
  fees := [1]
  market_value := [1, 1]

/-- The zero assignment of the single arity-2 pool of `inpMis`. -/
def DMis : List (List ℚ) := [[0, 0]]

/-- The incidence matrices of the reference scenario. -/
def AsTest : List (List (List ℚ)) :=
  [[[1, 0, 0, 0], [0, 1, 0, 0], [0, 0, 1, 0], [0, 0, 0, 1]],
   [[1, 0], [0, 1], [0, 0], [0, 0]],
   [[0, 0], [1, 0], [0, 1], [0, 0]],
   [[0, 0], [0, 0], [1, 0], [0, 1]],
   [[0, 0], [0, 0], [1, 0], [0, 1]]]

theorem npIndex_eq_none {n : ℕ} {idx : ℤ} :
    npIndex n idx = none ↔ idx < -(n : ℤ) ∨ (n : ℤ) ≤ idx := by
  unfold npIndex
  split_ifs with h1 h2
  · simp only [reduceCtorEq, false_iff]
    omega
  · simp only [reduceCtorEq, false_iff]
    omega
  · simp only [true_iff]
    omega

theorem npIndex_valid {n : ℕ} {idx : ℤ} (h₁ : -(n : ℤ) ≤ idx) (h₂ : idx < (n : ℤ)) :
    npIndex n idx = some (npRow n idx) := by
  unfold npIndex npRow
  split_ifs with ha hb <;> simp_all <;> try omega

theorem npRow_lt {n : ℕ} {idx : ℤ} (h₁ : -(n : ℤ) ≤ idx) (h₂ : idx < (n : ℤ)) :
    npRow n idx < n := by
  unfold npRow
  split_ifs <;> omega

theorem writeCols_eq_none {n : ℕ} :
    ∀ (l : List ℤ) (c : ℕ) (M : List (List ℚ)),
      writeCols n M c l = none ↔ ∃ idx ∈ l, npIndex n idx = none := by
  intro l
  induction l with
  | nil => intro c M; simp [writeCols]
  | cons idx rest ih =>
    intro c M
    unfold writeCols
    cases h : npIndex n idx with
    | none => simp [h]
    | some r =>
      rw [ih]
      constructor
      · rintro ⟨j, hj, hnone⟩
        exact ⟨j, List.mem_cons_of_mem _ hj, hnone⟩
      · rintro ⟨j, hj, hnone⟩
        rcases List.mem_cons.mp hj with rfl | hj
        · rw [h] at hnone; exact absurd hnone (by simp)
        · exact ⟨j, hj, hnone⟩

theorem setCol_length (xs : List ℚ) (c : ℕ) : (setCol xs c).length = xs.length := by
  induction xs generalizing c with
  | nil => rfl
  | cons x xs ih =>
    cases c with
    | zero => rfl
    | succ c => simpa [setCol] using ih c

theorem getD_setCol (xs : List ℚ) (c j : ℕ) :
    (setCol xs c).getD j 0 = if j = c ∧ c < xs.length then 1 else xs.getD j 0 := by
  induction xs generalizing c j with
  | nil => simp [setCol]
  | cons x xs ih =>
    cases c with
    | zero =>
      cases j with
      | zero => simp [setCol]
      | succ j => simp [setCol]
    | succ c =>
      cases j with
      | zero => simp [setCol]
      | succ j =>
        simp only [setCol, List.getD_cons_succ, ih, List.length_cons]
        by_cases h1 : j = c
        · by_cases h2 : c < xs.length
          · simp [h1, h2, Nat.succ_lt_succ h2]
          · have hne : ¬ (c + 1 < xs.length + 1) := by omega
            simp [h1, h2, hne]
        · have hne : ¬ (j + 1 = c + 1) := by omega
          simp [h1, hne]

theorem setRow_length (M : List (List ℚ)) (r c : ℕ) :
    (setRow M r c).length = M.length := by
  induction M generalizing r with
  | nil => rfl
  | cons row rest ih =>
    cases r with
    | zero => rfl
    | succ r => simpa [setRow] using ih r

theorem getD_setRow (M : List (List ℚ)) (r c i : ℕ) :
    (setRow M r c).getD i [] =
      if i = r ∧ r < M.length then setCol (M.getD r []) c else M.getD i [] := by
  induction M generalizing r i with
  | nil => simp [setRow]
  | cons row rest ih =>
    cases r with
    | zero =>
      cases i with
      | zero => simp [setRow]
      | succ i => simp [setRow]
    | succ r =>
      cases i with
      | zero => simp [setRow]
      | succ i =>
        simp only [setRow, List.getD_cons_succ, ih, List.length_cons]
        by_cases h1 : i = r
        · by_cases h2 : r < rest.length
          · simp [h1, h2, Nat.succ_lt_succ h2]
          · have hne : ¬ (r + 1 < rest.length + 1) := by omega
            simp [h1, h2, hne]
        · have hne : ¬ (i + 1 = r + 1) := by omega
          simp [h1, hne]

theorem getD_setRow_length (M : List (List ℚ)) (r c i : ℕ) :
    ((setRow M r c).getD i []).length = (M.getD i []).length := by
  rw [getD_setRow]
  split_ifs with h
  · rw [setCol_length, h.1]
  · rfl

theorem ent_setRow (M : List (List ℚ)) (r c r' j : ℕ) :
    ent (setRow M r c) r' j =
      if r' = r ∧ r < M.length ∧ j = c ∧ c < (M.getD r []).length then 1
      else ent M r' j := by
  unfold ent
  rw [getD_setRow]
  by_cases h : r' = r ∧ r < M.length
  · rw [if_pos h, getD_setCol]
    by_cases h2 : j = c ∧ c < (M.getD r []).length
    · rw [if_pos h2, if_pos ⟨h.1, h.2, h2.1, h2.2⟩]
    · rw [if_neg h2, if_neg (by tauto), h.1]
  · rw [if_neg h, if_neg (by tauto)]

theorem writeCols_spec {n w : ℕ} :
    ∀ (l : List ℤ) (c : ℕ) (M : List (List ℚ)),
      (∀ idx ∈ l, -(n : ℤ) ≤ idx ∧ idx < (n : ℤ)) →
      M.length = n →
      (∀ i, i < n → (M.getD i []).length = w) →
      c + l.length ≤ w →
      ∃ M', writeCols n M c l = some M' ∧ M'.length = n ∧
        (∀ i, i < n → (M'.getD i []).length = w) ∧
        ∀ r j, r < n →
          ent M' r j =
            if c ≤ j ∧ j - c < l.length ∧ npRow n (l.getD (j - c) 0) = r then 1
            else ent M r j := by
  intro l
  induction l with
  | nil =>
    intro c M hv hlen hrows hc
    refine ⟨M, rfl, hlen, hrows, ?_⟩
    intro r j _
    rw [if_neg]
    rintro ⟨_, hi, _⟩
    exact absurd hi (by simp)
  | cons idx rest ih =>
    intro c M hv hlen hrows hc
    have hvh := hv idx (List.mem_cons_self _ _)
    have hidx : npIndex n idx = some (npRow n idx) := npIndex_valid hvh.1 hvh.2
    have hrowlt : npRow n idx < n := npRow_lt hvh.1 hvh.2
    have hcw : c < w := by simp only [List.length_cons] at hc; omega
    obtain ⟨M', heq, h1, h2, h3⟩ := ih (c + 1) (setRow M (npRow n idx) c)
      (fun a ha => hv a (List.mem_cons_of_mem _ ha))
      (by rw [setRow_length, hlen])
      (fun i hi => by rw [getD_setRow_length]; exact hrows i hi)
      (by simp only [List.length_cons] at hc; omega)
    refine ⟨M', ?_, h1, h2, ?_⟩
    · show writeCols n M c (idx :: rest) = some M'
      unfold writeCols
      rw [hidx]
      exact heq
    · intro r j hr
      rw [h3 r j hr]
      by_cases hrest : c + 1 ≤ j ∧ j - (c + 1) < rest.length ∧
          npRow n (rest.getD (j - (c + 1)) 0) = r
      · rw [if_pos hrest, if_pos ?_]
        refine ⟨by omega, by simp only [List.length_cons]; omega, ?_⟩
        have hjc : j - c = (j - (c + 1)) + 1 := by omega
        rw [hjc, List.getD_cons_succ]
        exact hrest.2.2
      · rw [if_neg hrest, ent_setRow]
        by_cases hhead : j = c ∧ npRow n idx = r
        · rw [if_pos ⟨hhead.2.symm, by rw [hlen]; exact hrowlt, hhead.1,
            by rw [hrows _ hrowlt]; exact hcw⟩]
          rw [if_pos ?_]
          refine ⟨by omega, by simp only [List.length_cons]; omega, ?_⟩
          have hjc : j - c = 0 := by omega
          rw [hjc, List.getD_cons_zero]
          exact hhead.2
        · rw [if_neg ?_, if_neg ?_]
          · rintro ⟨hcj, hlt, hrow⟩
            rcases Nat.eq_or_lt_of_le hcj with hj | hj
            · refine hhead ⟨hj.symm, ?_⟩
              have hjc : j - c = 0 := by omega
              rw [hjc, List.getD_cons_zero] at hrow
              exact hrow
            · refine hrest ⟨by omega, by simp only [List.length_cons] at hlt; omega, ?_⟩
              have hjc : j - c = (j - (c + 1)) + 1 := by omega
              rw [hjc, List.getD_cons_succ] at hrow
              exact hrow
          · rintro ⟨h1', _, h3', _⟩
            exact hhead ⟨h3', h1'.symm⟩

theorem getD_replicate' {α : Type} (a d : α) :
    ∀ (n i : ℕ), i < n → (List.replicate n a).getD i d = a
  | n + 1, 0, _ => rfl
  | n + 1, i + 1, h => getD_replicate' a d n i (by omega)

theorem zeros_ent (n k r j : ℕ) :
    ent (List.replicate n (List.replicate k (0 : ℚ))) r j = 0 := by
  unfold ent
  rcases Nat.lt_or_ge r n with h | h
  · rw [getD_replicate' _ _ _ _ h]
    rcases Nat.lt_or_ge j k with h2 | h2
    · rw [getD_replicate' _ _ _ _ h2]
    · rw [List.getD_eq_default _ _ (by simpa using h2)]
  · have hrow : (List.replicate n (List.replicate k (0 : ℚ))).getD r [] = [] :=
      List.getD_eq_default _ _ (by simpa using h)
    rw [hrow]
    simp

theorem buildA_spec {n : ℕ} {l : List ℤ}
    (hv : ∀ idx ∈ l, -(n : ℤ) ≤ idx ∧ idx < (n : ℤ)) :
    ∃ M, buildA n l = some M ∧ M.length = n ∧
      (∀ i, i < n → (M.getD i []).length = l.length) ∧
      ∀ r j, r < n →
        ent M r j = if j < l.length ∧ npRow n (l.getD j 0) = r then 1 else 0 := by
  obtain ⟨M, h0, h1, h2, h3⟩ := writeCols_spec (w := l.length) l 0
    (List.replicate n (List.replicate l.length 0)) hv (by simp)
    (fun i hi => by
      rw [getD_replicate' _ _ _ _ hi, List.length_replicate])
    (by simp)
  refine ⟨M, h0, h1, h2, ?_⟩
  intro r j hr
  rw [h3 r j hr, zeros_ent]
  exact if_congr (by simp) rfl rfl

theorem buildA_eq_none {n : ℕ} {l : List ℤ} :
    buildA n l = none ↔ ∃ idx ∈ l, idx < -(n : ℤ) ∨ (n : ℤ) ≤ idx := by
  unfold buildA
  rw [writeCols_eq_none]
  constructor
  · rintro ⟨idx, hm, hn⟩
    exact ⟨idx, hm, npIndex_eq_none.mp hn⟩
  · rintro ⟨idx, hm, hn⟩
    exact ⟨idx, hm, npIndex_eq_none.mpr hn⟩


theorem getD_map {α β : Type} (f : α → β) (d : α) (b : β) :
    ∀ (l : List α) (j : ℕ), j < l.length → (l.map f).getD j b = f (l.getD j d) := by
  intro l
  induction l with
  | nil => intro j h; simp at h
  | cons a l ih =>
    intro j h
    cases j with
    | zero => simp
    | succ j =>
      simp only [List.map_cons, List.getD_cons_succ]
      exact ih j (by simp only [List.length_cons] at h; omega)

theorem getD_zipWith {α β γ : Type} (f : α → β → γ) (da : α) (db : β) (dc : γ) :
    ∀ (x : List α) (y : List β) (j : ℕ), j < x.length → j < y.length →
      (List.zipWith f x y).getD j dc = f (x.getD j da) (y.getD j db) := by
  intro x
  induction x with
  | nil => intro y j h _; simp at h
  | cons a x ih =>
    intro y j hx hy
    cases y with
    | nil => simp at hy
    | cons b y =>
      cases j with
      | zero => simp
      | succ j =>
        simp only [List.zipWith_cons_cons, List.getD_cons_succ]
        exact ih y j (by simp only [List.length_cons] at hx; omega)
          (by simp only [List.length_cons] at hy; omega)

theorem omap_some_length {α β : Type} (f : α → Option β) :
    ∀ {l : List α} {r : List β}, omap f l = some r → r.length = l.length := by
  intro l
  induction l with
  | nil =>
    intro r h
    simp only [omap, Option.some.injEq] at h
    rw [← h]
    rfl
  | cons a l ih =>
    intro r h
    simp only [omap] at h
    cases hfa : f a <;> cases hol : omap f l <;> rw [hfa, hol] at h <;> simp at h
    rename_i b bs
    rw [← h, List.length_cons, List.length_cons, ih hol]

theorem omap_some_getD {α β : Type} (f : α → Option β) (d : α) (d' : β) :
    ∀ {l : List α} {r : List β}, omap f l = some r →
      ∀ i, i < l.length → f (l.getD i d) = some (r.getD i d') := by
  intro l
  induction l with
  | nil => intro r _ i hi; simp at hi
  | cons a l ih =>
    intro r h i hi
    simp only [omap] at h
    cases hfa : f a <;> cases hol : omap f l <;> rw [hfa, hol] at h <;> simp at h
    rename_i b bs
    rw [← h]
    cases i with
    | zero => simpa using hfa
    | succ i =>
      simp only [List.getD_cons_succ]
      exact ih hol i (by simp only [List.length_cons] at hi; omega)

theorem omap_eq_none {α β : Type} (f : α → Option β) :
    ∀ (l : List α), omap f l = none ↔ ∃ a ∈ l, f a = none := by
  intro l
  induction l with
  | nil => simp [omap]
  | cons a l ih =>
    simp only [omap]
    cases hfa : f a with
    | none =>
      constructor
      · intro _; exact ⟨a, List.mem_cons_self _ _, hfa⟩
      · intro _; rfl
    | some b =>
      cases hol : omap f l with
      | none =>
        constructor
        · intro _
          obtain ⟨x, hx, hfx⟩ := (ih).mp hol
          exact ⟨x, List.mem_cons_of_mem _ hx, hfx⟩
        · intro _; rfl
      | some bs =>
        constructor
        · intro h; exact Option.noConfusion h
        · rintro ⟨x, hx, hfx⟩
          rcases List.mem_cons.mp hx with rfl | hx
          · rw [hfa] at hfx; exact Option.noConfusion hfx
          · have hn := (ih).mpr ⟨x, hx, hfx⟩
            rw [hol] at hn
            exact Option.noConfusion hn

theorem omap_some_mem {α β : Type} (f : α → Option β) :
    ∀ {l : List α} {r : List β}, omap f l = some r → ∀ b ∈ r, ∃ a ∈ l, f a = some b := by
  intro l
  induction l with
  | nil =>
    intro r h b hb
    simp only [omap, Option.some.injEq] at h
    rw [← h] at hb
    exact absurd hb (by simp)
  | cons a l ih =>
    intro r h b hb
    simp only [omap] at h
    cases hfa : f a <;> cases hol : omap f l <;> rw [hfa, hol] at h <;> simp at h
    rename_i b' bs
    rw [← h] at hb
    rcases List.mem_cons.mp hb with rfl | hb
    · exact ⟨a, List.mem_cons_self _ _, hfa⟩
    · obtain ⟨a', ha', hfa'⟩ := ih hol b hb
      exact ⟨a', List.mem_cons_of_mem _ ha', hfa'⟩

theorem writeCols_shape {n : ℕ} :
    ∀ (l : List ℤ) (c : ℕ) (M M' : List (List ℚ)), writeCols n M c l = some M' →
      M'.length = M.length ∧ ∀ i, (M'.getD i []).length = (M.getD i []).length := by
  intro l
  induction l with
  | nil =>
    intro c M M' h
    simp only [writeCols, Option.some.injEq] at h
    rw [← h]
    exact ⟨rfl, fun i => rfl⟩
  | cons idx rest ih =>
    intro c M M' h
    unfold writeCols at h
    cases hn : npIndex n idx with
    | none => rw [hn] at h; exact absurd h (by simp)
    | some r =>
      rw [hn] at h
      obtain ⟨h1, h2⟩ := ih (c + 1) (setRow M r c) M' h
      exact ⟨by rw [h1, setRow_length], fun i => by rw [h2 i, getD_setRow_length]⟩

theorem buildA_some_shape {n : ℕ} {l : List ℤ} {M : List (List ℚ)}
    (h : buildA n l = some M) :
    M.length = n ∧ ∀ i, i < n → (M.getD i []).length = l.length := by
  obtain ⟨h1, h2⟩ := writeCols_shape l 0 _ M h
  constructor
  · rw [h1]; simp
  · intro i hi
    rw [h2 i, getD_replicate' _ _ _ _ hi, List.length_replicate]

theorem bc_eq_zipWith (f : ℚ → ℚ → ℚ) {x y : List ℚ} (h : x.length = y.length) :
    bc f x y = some (List.zipWith f x y) := by
  unfold bc
  rw [if_pos h]

theorem poolNewReserve_eq {R D L : List ℚ} (γ : ℚ)
    (hD : D.length = R.length) (hL : L.length = R.length) :
    poolNewReserve R γ D L =
      some (List.zipWith (fun a b => a - b)
        (List.zipWith (fun a b => a + b) R (smul γ D)) L) := by
  unfold poolNewReserve
  rw [bc_eq_zipWith _ (by simp [smul, hD])]
  exact bc_eq_zipWith _ (by simp [smul, hD, hL])

theorem poolNewReserve_getD {R D L : List ℚ} (γ : ℚ)
    (hD : D.length = R.length) (hL : L.length = R.length) :
    ∃ nr, poolNewReserve R γ D L = some nr ∧ nr.length = R.length ∧
      ∀ j, j < R.length →
        nr.getD j 0 = R.getD j 0 + γ * D.getD j 0 - L.getD j 0 := by
  refine ⟨_, poolNewReserve_eq γ hD hL, ?_, ?_⟩
  · simp [smul, hD, hL]
  · intro j hj
    have hs : (smul γ D).length = R.length := by simp [smul, hD]
    have h1 : (List.zipWith (fun a b => a + b) R (smul γ D)).length = R.length := by
      simp [hs]
    rw [getD_zipWith _ 0 0 0 _ _ j (by omega) (by omega),
      getD_zipWith _ 0 0 0 _ _ j (by omega) (by omega)]
    unfold smul
    rw [getD_map _ 0 0 _ j (by omega)]

theorem bc_none (f : ℚ → ℚ → ℚ) {x y : List ℚ}
    (h : x.length ≠ y.length) (h1 : x.length ≠ 1) (h2 : y.length ≠ 1) :
    bc f x y = none := by
  unfold bc
  rw [if_neg h, if_neg h1, if_neg h2]

theorem poolNewReserve_mismatch (R D L : List ℚ) (γ : ℚ)
    (h : R.length ≠ D.length) (h1 : R.length ≠ 1) (h2 : D.length ≠ 1) :
    poolNewReserve R γ D L = none := by
  unfold poolNewReserve
  rw [bc_none _ (by simpa [smul] using h) h1 (by simpa [smul] using h2)]
  rfl

theorem poolNewReserve_bcast (r γ : ℚ) (D L : List ℚ) (hL : L.length = D.length) :
    ∃ t, poolNewReserve [r] γ D L = some t ∧ t.length = D.length := by
  rcases eq_or_ne D.length 1 with hD1 | hD1
  · refine ⟨List.zipWith (fun a b => a - b)
      (List.zipWith (fun a b => a + b) [r] (smul γ D)) L, ?_, ?_⟩
    · unfold poolNewReserve
      rw [bc_eq_zipWith _ (by simp [smul, hD1])]
      exact bc_eq_zipWith _ (by simp [smul, hD1, hL])
    · simp [smul, hD1, hL]
  · refine ⟨List.zipWith (fun a b => a - b) ((smul γ D).map (fun b => r + b)) L, ?_, ?_⟩
    · unfold poolNewReserve
      have hb : bc (fun a b => a + b) [r] (smul γ D) =
          some ((smul γ D).map (fun b => r + b)) := by
        unfold bc
        rw [if_neg (by simp [smul]; omega), if_pos (by simp)]
        rfl
      rw [hb]
      exact bc_eq_zipWith _ (by simp [smul, hL])
    · simp [smul, hL]

theorem zip4_length {α β γ δ : Type} (as : List α) (bs : List β) (cs : List γ) (ds : List δ) :
    (zip4 as bs cs ds).length =
      min (min as.length bs.length) (min cs.length ds.length) := by
  simp only [zip4, List.length_zip]
  omega

theorem foldl_vecAdd_spec (n : ℕ) :
    ∀ (vs : List (List ℚ)) (init : List ℚ), init.length = n → (∀ v ∈ vs, v.length = n) →
      (vs.foldl vecAdd init).length = n ∧
      ∀ j, j < n → (vs.foldl vecAdd init).getD j 0 =
        init.getD j 0 + (vs.map (fun v => v.getD j 0)).sum := by
  intro vs
  induction vs with
  | nil =>
    intro init hinit _
    exact ⟨hinit, fun j _ => by simp⟩
  | cons v vs ih =>
    intro init hinit hvs
    have hv : v.length = n := hvs v (List.mem_cons_self _ _)
    have hlen : (vecAdd init v).length = n := by
      unfold vecAdd
      simp [hinit, hv]
    obtain ⟨h1, h2⟩ := ih (vecAdd init v) hlen (fun u hu => hvs u (List.mem_cons_of_mem _ hu))
    refine ⟨h1, fun j hj => ?_⟩
    rw [List.foldl_cons, h2 j hj]
    unfold vecAdd
    rw [getD_zipWith _ 0 0 0 _ _ j (by omega) (by omega)]
    simp only [List.map_cons, List.sum_cons]
    ring

theorem newRes_pointwise :
    ∀ (Rs : List (List ℚ)) (Fs : List ℚ) (Ds Ls : List (List ℚ)),
      Fs.length = Rs.length → Ds.length = Rs.length → Ls.length = Rs.length →
      (∀ i, i < Rs.length →
        (Ds.getD i []).length = (Rs.getD i []).length ∧
        (Ls.getD i []).length = (Rs.getD i []).length) →
      ∃ nr, omap (fun t => poolNewReserve t.1 t.2.1 t.2.2.1 t.2.2.2) (zip4 Rs Fs Ds Ls)
          = some nr ∧
        nr.length = Rs.length ∧
        ∀ i j, i < Rs.length → j < (Rs.getD i []).length →
          (nr.getD i []).getD j 0 =
            (Rs.getD i []).getD j 0 + Fs.getD i 0 * (Ds.getD i []).getD j 0
              - (Ls.getD i []).getD j 0 := by
  intro Rs
  induction Rs with
  | nil =>
    intro Fs Ds Ls _ _ _ _
    refine ⟨[], ?_, rfl, ?_⟩
    · rfl
    · intro i j hi
      simp at hi
  | cons R Rs ih =>
    intro Fs Ds Ls hF hD hL hshape
    cases Fs with
    | nil => simp at hF
    | cons γ Fs =>
      cases Ds with
      | nil => simp at hD
      | cons D Ds =>
        cases Ls with
        | nil => simp at hL
        | cons L Ls =>
          have hD0 : D.length = R.length := by simpa using (hshape 0 (by simp)).1
          have hL0 : L.length = R.length := by simpa using (hshape 0 (by simp)).2
          obtain ⟨nr0, hnr0, hlen0, hpt0⟩ :=
            poolNewReserve_getD (R := R) (D := D) (L := L) γ hD0 hL0
          obtain ⟨nr, hnr, hlen, hpt⟩ := ih Fs Ds Ls
            (by simp only [List.length_cons] at hF; omega)
            (by simp only [List.length_cons] at hD; omega)
            (by simp only [List.length_cons] at hL; omega)
            (fun i hi => by
              have h := hshape (i + 1) (by simp only [List.length_cons]; omega)
              simpa using h)
          refine ⟨nr0 :: nr, ?_, by simp [hlen], ?_⟩
          · have hz : zip4 (R :: Rs) (γ :: Fs) (D :: Ds) (L :: Ls)
                = (R, γ, D, L) :: zip4 Rs Fs Ds Ls := rfl
            rw [hz]
            simp only [omap]
            rw [hnr0, hnr]
          · intro i j hi hj
            cases i with
            | zero =>
              simpa using hpt0 j (by simpa using hj)
            | succ i =>
              simp only [List.getD_cons_succ] at hj ⊢
              exact hpt i j (by simp only [List.length_cons] at hi; omega) hj

theorem getD_mem' {α : Type} (d : α) :
    ∀ (l : List α) (i : ℕ), i < l.length → l.getD i d ∈ l := by
  intro l
  induction l with
  | nil => intro i hi; simp at hi
  | cons a l ih =>
    intro i hi
    cases i with
    | zero => simp
    | succ i =>
      simp only [List.getD_cons_succ]
      exact List.mem_cons_of_mem _ (ih i (by simp only [List.length_cons] at hi; omega))

/-- C4: for a pool whose local index list has all global indices valid and
pairwise distinct, the constructed incidence matrix has `n` rows and one
column per local slot, and entry `(r, i)` is `1` exactly when the declared
global index of slot `i` is `r`, so each column has exactly one non-zero
entry, of value `1`, at the declared row. -/
theorem incidence_matrix_spec (n : ℕ) (l : List ℤ)
    (hv : ∀ idx ∈ l, 0 ≤ idx ∧ idx < (n : ℤ))
    (_hnd : l.Pairwise (fun a b => a ≠ b)) :
    ∃ M, buildA n l = some M ∧ M.length = n ∧
      (∀ i, i < n → (M.getD i []).length = l.length) ∧
      ∀ r i, r < n → i < l.length →
        ent M r i = if l.getD i 0 = (r : ℤ) then 1 else 0 := by
  obtain ⟨M, h0, h1, h2, h3⟩ := buildA_spec
    (fun idx hm => ⟨by have := (hv idx hm).1; omega, (hv idx hm).2⟩)
  refine ⟨M, h0, h1, h2, ?_⟩
  intro r i hr hi
  rw [h3 r i hr]
  have hmem : l.getD i 0 ∈ l := getD_mem' 0 l i hi
  have hb := hv _ hmem
  have hrow : npRow n (l.getD i 0) = (l.getD i 0).toNat := by
    unfold npRow
    rw [if_neg (by omega)]
  have hcond : (i < l.length ∧ npRow n (l.getD i 0) = r) ↔ l.getD i 0 = (r : ℤ) := by
    rw [hrow]
    constructor
    · rintro ⟨-, h⟩; omega
    · intro h; exact ⟨hi, by omega⟩
  rw [if_congr hcond rfl rfl]

/-- Witness for C4 at `n = 3`, `l = [2, 0]`. -/
theorem incidence_matrix_spec_witness :
    (∀ idx ∈ [(2 : ℤ), 0], 0 ≤ idx ∧ idx < (3 : ℤ)) ∧
    ([(2 : ℤ), 0].Pairwise (fun a b => a ≠ b)) ∧
    ∃ M, buildA 3 [(2 : ℤ), 0] = some M ∧ M.length = 3 ∧
      (∀ i, i < 3 → (M.getD i []).length = 2) ∧
      ∀ r i, r < 3 → i < 2 →
        ent M r i = if [(2 : ℤ), 0].getD i 0 = (r : ℤ) then 1 else 0 :=
  ⟨by decide, by decide, incidence_matrix_spec 3 [2, 0] (by decide) (by decide)⟩

/-- C5 (counterexample): the subscript `-1` lies outside `[0, n)` for
`n = 2`, yet the index-mapping step does not raise: it silently produces
an incidence matrix whose single column has its `1` in row `1 = n - 1`. -/
theorem negative_index_not_rejected :
    (¬ (0 ≤ (-1 : ℤ) ∧ (-1 : ℤ) < (2 : ℤ))) ∧
    buildA 2 [(-1 : ℤ)] = some [[0], [1]] :=
  ⟨by decide, by rfl⟩

/-- C5 (amended): the index-mapping step raises exactly when some index is
`< -n` or `≥ n`; a negative index in `[-n, -1]` is silently wrapped to row
`n + idx`. -/
theorem index_mapping_failure_iff :
    ∀ (n : ℕ) (l : List ℤ),
      (buildA n l = none ↔ ∃ idx ∈ l, idx < -(n : ℤ) ∨ (n : ℤ) ≤ idx) ∧
      (∀ idx : ℤ, -(n : ℤ) ≤ idx → idx < 0 →
        npIndex n idx = some (idx + (n : ℤ)).toNat) :=
  fun n _ => ⟨buildA_eq_none, fun idx h1 h2 => by
    rw [npIndex_valid h1 (by omega)]
    unfold npRow
    rw [if_pos h2]⟩

/-- Witness for the amended C5 at `n = 2` with subscripts `-5` and `-1`. -/
theorem index_mapping_failure_iff_witness :
    (buildA 2 [(-5 : ℤ)] = none ↔ ∃ idx ∈ [(-5 : ℤ)], idx < -(2 : ℤ) ∨ (2 : ℤ) ≤ idx) ∧
    npIndex 2 (-1) = some 1 :=
  ⟨(index_mapping_failure_iff 2 [(-5 : ℤ)]).1,
   (index_mapping_failure_iff 2 []).2 (-1) (by decide) (by decide)⟩

/-- C6 (counterexample): an input carrying two configuration errors at once
(six fee entries for five pools, and a first fee retention of `0`, which is
not positive) passes the whole model construction without any failure: the
extra fee entry is silently dropped by the truncating `zip` and the fee
value is never checked. -/
theorem config_errors_silently_accepted :
    inpCfg.fees.length = 6 ∧ inpCfg.local_indices.length = 5 ∧
    inpCfg.reserves.length = 5 ∧ inpCfg.fees.getD 0 1 ≤ 0 ∧
    (zip4 inpCfg.reserves inpCfg.fees (zerosFor inpCfg) (zerosFor inpCfg)).length = 5 ∧
    ModelBuilds inpCfg := by
  refine ⟨by decide, by decide, by decide, by decide, by decide, ?_⟩
  norm_num [ModelBuilds, inpCfg, buildAs, buildA, omap, writeCols, npIndex, setRow,
    setCol, newReserves, zerosFor, zip4, poolNewReserve, bc, smul, consAssembles,
    Option.isSome]

/-- C6 (amended): an out-of-range index aborts the model construction, and
so does a pool whose reserve-vector length differs from its arity when
neither length is `1` (the expression `R + fee * D` cannot be built); but
mismatched top-level list lengths are silently truncated to the shortest
by `zip`, so they are not detected, a length-one reserve vector is
silently broadcast against a larger arity, and a non-positive fee
retention is accepted without any check. -/
theorem config_error_handling_amended :
    (∀ (n : ℕ) (ls : List (List ℤ)),
      (∃ l ∈ ls, ∃ idx ∈ l, idx < -(n : ℤ) ∨ (n : ℤ) ≤ idx) → buildAs n ls = none) ∧
    (∀ (inp : Input) (D L : List (List ℚ)),
      (∃ t ∈ zip4 inp.reserves inp.fees D L,
        t.1.length ≠ t.2.2.1.length ∧ t.1.length ≠ 1 ∧ t.2.2.1.length ≠ 1) →
      newReserves inp D L = none) ∧
    (∀ (Rs : List (List ℚ)) (Fs : List ℚ) (Ds Ls : List (List ℚ)),
      (zip4 Rs Fs Ds Ls).length =
        min (min Rs.length Fs.length) (min Ds.length Ls.length)) ∧
    (∀ (r γ : ℚ) (D L : List ℚ), L.length = D.length →
      ∃ t, poolNewReserve [r] γ D L = some t ∧ t.length = D.length) := by
  refine ⟨?_, ?_, ?_, ?_⟩
  · rintro n ls ⟨l, hl, idx, hidx, hout⟩
    unfold buildAs
    rw [omap_eq_none]
    exact ⟨l, hl, buildA_eq_none.mpr ⟨idx, hidx, hout⟩⟩
  · rintro inp D L ⟨t, ht, h1, h2, h3⟩
    unfold newReserves
    rw [omap_eq_none]
    exact ⟨t, ht, poolNewReserve_mismatch _ _ _ _ h1 h2 h3⟩
  · exact fun Rs Fs Ds Ls => zip4_length Rs Fs Ds Ls
  · exact fun r γ D L hL => poolNewReserve_bcast r γ D L hL

/-- Witness for the amended C6: an index `5` out of range for `n = 2`
aborts the build, a length-3 reserve vector against an arity-2 pool aborts
the expression construction, a four-way `zip` truncates to the shortest
length, and a length-one reserve vector is silently broadcast. -/
theorem config_error_handling_amended_witness :
    buildAs 2 [[(5 : ℤ)]] = none ∧
    newReserves inpMis DMis DMis = none ∧
    (zip4 [[(1 : ℚ)]] [(1 : ℚ), 2] ([] : List (List ℚ)) [[(3 : ℚ)]]).length =
      min (min 1 2) (min 0 1) ∧
    ∃ t, poolNewReserve [(5 : ℚ)] (1/2) [1, 2] [0, 0] = some t ∧
      t.length = [(1 : ℚ), 2].length :=
  ⟨config_error_handling_amended.1 2 [[(5 : ℤ)]] ⟨[5], by decide, 5, by decide, by decide⟩,
   config_error_handling_amended.2.1 inpMis DMis DMis
     ⟨([1, 2, 3], 1, [0, 0], [0, 0]), by decide, by decide, by decide, by decide⟩,
   config_error_handling_amended.2.2.1 [[(1 : ℚ)]] [(1 : ℚ), 2] [] [[(3 : ℚ)]],
   config_error_handling_amended.2.2.2 5 (1/2) [1, 2] [0, 0] (by decide)⟩

/-- C2: for every pool, the post-trade reserve expression consumed by the
constraint builder (the `new_reserves` list, which is what every invariant
constraint reads) equals `reserves + fee_retention * deposit - withdraw`
componentwise. -/
theorem post_trade_reserves_formula (inp : Input) (D L : List (List ℚ))
    (hF : inp.fees.length = inp.reserves.length)
    (hD : D.length = inp.reserves.length)
    (hL : L.length = inp.reserves.length)
    (hshape : ∀ i, i < inp.reserves.length →
      (D.getD i []).length = (inp.reserves.getD i []).length ∧
      (L.getD i []).length = (inp.reserves.getD i []).length) :
    ∃ nr, newReserves inp D L = some nr ∧ nr.length = inp.reserves.length ∧
      ∀ i j, i < inp.reserves.length → j < (inp.reserves.getD i []).length →
        (nr.getD i []).getD j 0 =
          (inp.reserves.getD i []).getD j 0
            + inp.fees.getD i 0 * (D.getD i []).getD j 0
            - (L.getD i []).getD j 0 :=
  newRes_pointwise inp.reserves inp.fees D L hF hD hL hshape

/-- Witness for C2 at the reference scenario with the zero assignment. -/
theorem post_trade_reserves_formula_witness :
    inpTest.fees.length = inpTest.reserves.length ∧
    ∃ nr, newReserves inpTest (zerosFor inpTest) (zerosFor inpTest) = some nr ∧
      nr.length = inpTest.reserves.length ∧
      ∀ i j, i < inpTest.reserves.length → j < (inpTest.reserves.getD i []).length →
        (nr.getD i []).getD j 0 =
          (inpTest.reserves.getD i []).getD j 0
            + inpTest.fees.getD i 0 * (((zerosFor inpTest)).getD i []).getD j 0
            - (((zerosFor inpTest)).getD i []).getD j 0 :=
  ⟨by decide,
   post_trade_reserves_formula inpTest (zerosFor inpTest) (zerosFor inpTest)
     (by decide) (by decide) (by decide) (by decide)⟩

/-- C8: on an input whose indices all resolve, the returned bundle has one
incidence matrix per pool of shape `(n, arity_l)`, and the declared deposit
and withdrawal variables are one vector per pool, each of the arity of its
pool. -/
theorem solve_return_shapes (inp : Input)
    (hv : ∀ l ∈ inp.local_indices, ∀ idx ∈ l, 0 ≤ idx ∧ idx < (inp.n : ℤ)) :
    ∃ As, buildAs inp.n inp.local_indices = some As ∧
      As.length = inp.local_indices.length ∧
      (varShapes inp).length = inp.local_indices.length ∧
      ∀ i, i < inp.local_indices.length →
        (varShapes inp).getD i 0 = (inp.local_indices.getD i []).length ∧
        (As.getD i []).length = inp.n ∧
        ∀ r, r < inp.n →
          ((As.getD i []).getD r []).length = (inp.local_indices.getD i []).length := by
  cases hAs : buildAs inp.n inp.local_indices with
  | none =>
    exfalso
    rw [buildAs, omap_eq_none] at hAs
    obtain ⟨l, hl, hfail⟩ := hAs
    rw [buildA_eq_none] at hfail
    obtain ⟨idx, hidx, hout⟩ := hfail
    have := hv l hl idx hidx
    omega
  | some As =>
    have hlenAs : As.length = inp.local_indices.length := omap_some_length _ hAs
    refine ⟨As, rfl, hlenAs, by simp [varShapes], ?_⟩
    intro i hi
    have hAi := omap_some_getD (buildA inp.n) [] [] hAs i hi
    exact ⟨getD_map List.length [] 0 inp.local_indices i hi,
      (buildA_some_shape hAi).1, fun r hr => (buildA_some_shape hAi).2 r hr⟩

/-- Witness for C8 at the reference scenario. -/
theorem solve_return_shapes_witness :
    (∀ l ∈ inpTest.local_indices, ∀ idx ∈ l, 0 ≤ idx ∧ idx < (inpTest.n : ℤ)) ∧
    ∃ As, buildAs inpTest.n inpTest.local_indices = some As ∧
      As.length = inpTest.local_indices.length ∧
      (varShapes inpTest).length = inpTest.local_indices.length ∧
      ∀ i, i < inpTest.local_indices.length →
        (varShapes inpTest).getD i 0 = (inpTest.local_indices.getD i []).length ∧
        (As.getD i []).length = inpTest.n ∧
        ∀ r, r < inpTest.n →
          ((As.getD i []).getD r []).length = (inpTest.local_indices.getD i []).length :=
  ⟨by decide, solve_return_shapes inpTest (by decide)⟩

/-- C3: `psi` is the elementwise sum over all pools of the incidence matrix
applied to `withdraw - deposit`, a vector of length `n`; the objective value
is `market_value` dotted with `psi`; and any feasible assignment satisfies
the componentwise constraint `psi >= 0`. -/
theorem objective_psi_spec (inp : Input) (As : List (List (List ℚ))) (D L : List (List ℚ))
    (hAs : buildAs inp.n inp.local_indices = some As) :
    (psiFrom inp.n As D L).length = inp.n ∧
    (∀ j, j < inp.n → (psiFrom inp.n As D L).getD j 0 =
      ((zip3 As D L).map
        (fun t => dot (t.1.getD j []) (List.zipWith (fun a b => a - b) t.2.2 t.2.1))).sum) ∧
    objVal inp D L = dot inp.market_value (psiFrom inp.n As D L) ∧
    (Feasible inp D L → nonnegV (psiFrom inp.n As D L)) := by
  have hmemAs : ∀ M ∈ As, M.length = inp.n := fun M hM => by
    obtain ⟨l, -, hbl⟩ := omap_some_mem _ hAs M hM
    exact (buildA_some_shape hbl).1
  have hvs : ∀ v ∈ (zip3 As D L).map
      (fun t => matVec t.1 (List.zipWith (fun a b => a - b) t.2.2 t.2.1)),
      v.length = inp.n := by
    intro v hv
    obtain ⟨t, ht, rfl⟩ := List.mem_map.mp hv
    obtain ⟨M, rest⟩ := t
    have hM : M ∈ As := (List.of_mem_zip ht).1
    unfold matVec
    simp [hmemAs M hM]
  obtain ⟨hlen, hcomp⟩ :=
    foldl_vecAdd_spec inp.n _ (List.replicate inp.n 0) (by simp) hvs
  refine ⟨hlen, ?_, ?_, ?_⟩
  · intro j hj
    unfold psiFrom
    rw [hcomp j hj, getD_replicate' _ _ _ _ hj, zero_add, List.map_map]
    refine congrArg List.sum (List.map_congr_left ?_)
    intro t ht
    obtain ⟨M, rest⟩ := t
    have hM : M ∈ As := (List.of_mem_zip ht).1
    show (matVec M (List.zipWith (fun a b => a - b) rest.2 rest.1)).getD j 0 = _
    unfold matVec
    rw [getD_map _ [] 0 M j (by rw [hmemAs M hM]; exact hj)]
  · unfold objVal
    rw [hAs]
    rfl
  · intro hFeas
    obtain ⟨-, -, -, h⟩ := hFeas
    rw [hAs] at h
    cases hnr : newReserves inp D L with
    | none => rw [hnr] at h; exact h.elim
    | some nr => rw [hnr] at h; exact h.2.2

/-- Witness for C3 at the reference scenario with the zero assignment. -/
theorem objective_psi_spec_witness :
    buildAs inpTest.n inpTest.local_indices = some AsTest ∧
    ((psiFrom inpTest.n AsTest (zerosFor inpTest) (zerosFor inpTest)).length = inpTest.n ∧
    (∀ j, j < inpTest.n →
      (psiFrom inpTest.n AsTest (zerosFor inpTest) (zerosFor inpTest)).getD j 0 =
      ((zip3 AsTest (zerosFor inpTest) (zerosFor inpTest)).map
        (fun t => dot (t.1.getD j []) (List.zipWith (fun a b => a - b) t.2.2 t.2.1))).sum) ∧
    objVal inpTest (zerosFor inpTest) (zerosFor inpTest) =
      dot inpTest.market_value (psiFrom inpTest.n AsTest (zerosFor inpTest) (zerosFor inpTest)) ∧
    (Feasible inpTest (zerosFor inpTest) (zerosFor inpTest) →
      nonnegV (psiFrom inpTest.n AsTest (zerosFor inpTest) (zerosFor inpTest)))) :=
  ⟨by rfl,
   objective_psi_spec inpTest AsTest (zerosFor inpTest) (zerosFor inpTest) (by rfl)⟩

theorem feasible_inpDup : Feasible inpDup DDup LDup := by
  norm_num [Feasible, inpDup, DDup, LDup, WellShapedVars, nonnegM, nonnegV, buildAs,
    buildA, omap, writeCols, npIndex, setRow, setCol, newReserves, zip4, zip3,
    poolNewReserve, bc, smul, Option.elim, consHold, geoMeanGE1, geoMeanGE, geoPow,
    psiFrom, matVec, dot, vecAdd]
  simp only [List.reduceReplicate]
  norm_num

theorem newReserves_inpDup : newReserves inpDup DDup LDup = some nrDup := by
  norm_num [newReserves, inpDup, DDup, LDup, nrDup, zip4, omap, poolNewReserve, bc, smul]

theorem feasible_inpSix : Feasible inpSix DSix LSix := by
  norm_num [Feasible, inpSix, DSix, LSix, WellShapedVars, nonnegM, nonnegV, buildAs,
    buildA, omap, writeCols, npIndex, setRow, setCol, newReserves, zip4, zip3,
    poolNewReserve, bc, smul, Option.elim, consHold, geoMeanGE1, geoMeanGE, geoPow,
    psiFrom, matVec, dot, vecAdd]
  simp only [List.reduceReplicate]
  norm_num

theorem newReserves_inpSix : newReserves inpSix DSix LSix = some nrSix := by
  norm_num [newReserves, inpSix, DSix, LSix, nrSix, zip4, omap, poolNewReserve, bc, smul]

/-- C1 (code-bug evaluation): `inpSkew` is a valid input (non-negative
reserves, fees in `(0, 1]`, consistent lengths, indices in `[0, n)`), yet
the all-zero assignment violates the emitted constraint set: the first
constraint compares the weighted geometric mean (weights `[4,3,2,1]`) of
the post-trade reserves of pool `0` against the UNWEIGHTED geometric mean
of its pre-trade reserves, and at zero trade with reserves `[1,1,1,16]`
this asks for `16 ^ (1/10) ≥ 16 ^ (1/4)`, which is false. -/
theorem zero_trade_infeasible_skewed :
    ValidInput inpSkew ∧ ¬ Feasible inpSkew (zerosFor inpSkew) (zerosFor inpSkew) := by
  constructor
  · norm_num [ValidInput, inpSkew, nonnegV]
  · intro h
    norm_num [Feasible, inpSkew, WellShapedVars, nonnegM, nonnegV, zerosFor, buildAs,
      buildA, omap, writeCols, npIndex, setRow, setCol, newReserves, zip4, zip3,
      poolNewReserve, bc, smul, Option.elim, consHold, geoMeanGE1, geoMeanGE, geoPow,
      psiFrom, matVec, dot, vecAdd] at h
    simp only [List.reduceReplicate] at h
    norm_num at h

/-- C7: every feasible assignment satisfies, for the pool at index 4,
exactly the constant-sum inequality and the explicit post-trade
non-negativity; and no geometric-mean constraint is emitted for that pool:
at `inpDup` a feasible assignment moves pool 4 from `[10, 10]` to `[20, 0]`,
strictly collapsing both its plain and weighted geometric means. -/
theorem constant_sum_pool_constraints :
    (∀ (inp : Input) (D L nr : List (List ℚ)),
      Feasible inp D L → newReserves inp D L = some nr →
        (inp.reserves.getD 4 []).sum ≤ (nr.getD 4 []).sum ∧ nonnegV (nr.getD 4 [])) ∧
    (Feasible inpDup DDup LDup ∧ newReserves inpDup DDup LDup = some nrDup ∧
      ¬ geoMeanGE1 (nrDup.getD 4 []) (inpDup.reserves.getD 4 []) ∧
      ¬ geoMeanGE (nrDup.getD 4 []) [4, 3, 2, 1] (inpDup.reserves.getD 4 [])) := by
  constructor
  · rintro inp D L nr ⟨-, -, -, h⟩ hnr
    cases hAs : buildAs inp.n inp.local_indices with
    | none => rw [hAs] at h; exact h.elim
    | some As =>
      rw [hAs, hnr] at h
      exact ⟨h.2.1.2.2.2.2.1, h.2.1.2.2.2.2.2⟩
  · refine ⟨feasible_inpDup, newReserves_inpDup, ?_, ?_⟩
    · norm_num [geoMeanGE1, geoMeanGE, geoPow, nrDup, inpDup]
      simp only [List.reduceReplicate]
      norm_num
    · norm_num [geoMeanGE, geoPow, nrDup, inpDup]

/-- Witness for C7 at `inpDup` with its duplicated-slot assignment. -/
theorem constant_sum_pool_constraints_witness :
    (inpDup.reserves.getD 4 []).sum ≤ (nrDup.getD 4 []).sum ∧
    nonnegV (nrDup.getD 4 []) :=
  constant_sum_pool_constraints.1 inpDup DDup LDup nrDup feasible_inpDup newReserves_inpDup

/-- C10: the invariant kind is fixed by pool position: every feasible
assignment satisfies the weighted geometric-mean constraint (weights
`[4,3,2,1]`) for pool 0, plain geometric-mean constraints for pools 1-3 and
the constant-sum-plus-non-negativity constraints for pool 4; and a pool at
index 5 receives no invariant constraint at all: at `inpSix` a feasible
assignment leaves pool 5 with a negative reserve component, a strictly
decreased sum and violated geometric means. -/
theorem positional_invariants :
    (∀ (inp : Input) (D L nr : List (List ℚ)),
      Feasible inp D L → newReserves inp D L = some nr →
        geoMeanGE (nr.getD 0 []) [4, 3, 2, 1] (inp.reserves.getD 0 []) ∧
        geoMeanGE1 (nr.getD 1 []) (inp.reserves.getD 1 []) ∧
        geoMeanGE1 (nr.getD 2 []) (inp.reserves.getD 2 []) ∧
        geoMeanGE1 (nr.getD 3 []) (inp.reserves.getD 3 []) ∧
        (inp.reserves.getD 4 []).sum ≤ (nr.getD 4 []).sum ∧ nonnegV (nr.getD 4 [])) ∧
    (Feasible inpSix DSix LSix ∧ newReserves inpSix DSix LSix = some nrSix ∧
      (nrSix.getD 5 []).getD 0 0 < 0 ∧
      (nrSix.getD 5 []).sum < (inpSix.reserves.getD 5 []).sum ∧
      ¬ geoMeanGE1 (nrSix.getD 5 []) (inpSix.reserves.getD 5 []) ∧
      ¬ geoMeanGE (nrSix.getD 5 []) [4, 3, 2, 1] (inpSix.reserves.getD 5 [])) := by
  constructor
  · rintro inp D L nr ⟨-, -, -, h⟩ hnr
    cases hAs : buildAs inp.n inp.local_indices with
    | none => rw [hAs] at h; exact h.elim
    | some As =>
      rw [hAs, hnr] at h
      exact ⟨h.2.1.1, h.2.1.2.1, h.2.1.2.2.1, h.2.1.2.2.2.1,
        h.2.1.2.2.2.2.1, h.2.1.2.2.2.2.2⟩
  · refine ⟨feasible_inpSix, newReserves_inpSix, ?_, ?_, ?_, ?_⟩
    · norm_num [nrSix]
    · norm_num [nrSix, inpSix]
    · norm_num [geoMeanGE1, geoMeanGE, geoPow, nrSix, inpSix, nonnegV]
    · norm_num [geoMeanGE, geoPow, nrSix, inpSix]

/-- Witness for C10 at `inpSix` with its overdrawn sixth pool. -/
theorem positional_invariants_witness :
    geoMeanGE (nrSix.getD 0 []) [4, 3, 2, 1] (inpSix.reserves.getD 0 []) ∧
    geoMeanGE1 (nrSix.getD 1 []) (inpSix.reserves.getD 1 []) ∧
    geoMeanGE1 (nrSix.getD 2 []) (inpSix.reserves.getD 2 []) ∧
    geoMeanGE1 (nrSix.getD 3 []) (inpSix.reserves.getD 3 []) ∧
    (inpSix.reserves.getD 4 []).sum ≤ (nrSix.getD 4 []).sum ∧
    nonnegV (nrSix.getD 4 []) :=
  positional_invariants.1 inpSix DSix LSix nrSix feasible_inpSix newReserves_inpSix

end QtradeArb
